import Mathlib

/-!
Shallow embedding of the QR-bingo sheet engine (the `BingoSheet` model class):
slot and sheet data model, Fisher–Yates shuffling, length-constrained shuffled
list generation, grid construction, the hit/punch operations and bingo-line
detection, together with theorems checking the specification against it.

Randomness (`Math.random()`) is modelled by an explicit random source: a
function yielding an arbitrary natural number per draw, reduced into the
required range exactly where the code reduces it.  The `while` loop of
`getShuffledListWithLength` is modelled with explicit fuel, `none` standing
for exhaustion of any finite fuel (non-termination).  In-place array mutation
is modelled by threading the array state explicitly.
-/

/-- A slot variation descriptor (`IBingoSlotConfig`): a value plus display
metadata. -/
structure Variation where
  value : String
  label : String
  description : String
  imageURL : String
deriving DecidableEq, Repr, Inhabited

/-- A grid position, the pair `(x, y)`. -/
structure Position where
  x : Nat
  y : Nat
deriving DecidableEq, Repr, Inhabited

/-- Modelled from the spec: a `BingoSlot` (its class lives in the `slot`
module, which is not among the sources) carries a value, display metadata, a
grid position and two boolean flags `punched` and `bingo`, both starting
`false`. -/
structure BingoSlot where
  value : String
  label : String
  description : String
  imageURL : String
  position : Position
  punched : Bool
  bingo : Bool
deriving DecidableEq, Repr, Inhabited

/-- Modelled from the spec: the `BingoSlot` constructor initialises `punched`
and `bingo` to `false`. -/
def mkBingoSlot (value label description imageURL : String) (position : Position) : BingoSlot :=
  { value := value, label := label, description := description, imageURL := imageURL,
    position := position, punched := false, bingo := false }

/-- Modelled from the spec: a scan payload (from the `qrcode` module, not
among the sources) carries at minimum a `value` matched against slot values. -/
structure Payload where
  value : String
deriving DecidableEq, Repr

/-- Sheet generation configuration (`IBingoConfig`). -/
structure IBingoConfig where
  width : Nat
  height : Nat
  variations : List Variation
deriving Repr

/-- One swap step `[arr[i], arr[j]] = [arr[j], arr[i]]` of `arrayShuffle`, on
lists: out-of-range indices leave the list unchanged. -/
def swapPair (l : List α) (i j : Nat) : List α :=
  match l[i]?, l[j]? with
  | some a, some b => (l.set i b).set j a
  | _, _ => l

/-- The Fisher–Yates loop of `arrayShuffle`: for `i` from `arr.length - 1`
down to `1`, swap `arr[i]` with `arr[Math.floor(Math.random() * (i + 1))]`.
The random source `rand` yields an arbitrary natural per index `i`;
`rand i % (i + 1)` is the chosen index `j`, uniform over `0..i` exactly when
`rand i` is uniform. -/
def fisherYatesAux (rand : Nat → Nat) : Nat → List α → List α
  | 0, l => l
  | Nat.succ n, l => fisherYatesAux rand n (swapPair l (n+1) (rand (n+1) % (n+2)))

/-- `arrayShuffle`: in-place Fisher–Yates shuffle driven by the random source
`rand`. -/
def arrayShuffle (rand : Nat → Nat) (l : List α) : List α :=
  fisherYatesAux rand (l.length - 1) l

theorem cons_set_perm (a : α) (t : List α) (k : Nat) (hk : k < t.length) :
    (t.get ⟨k, hk⟩ :: t.set k a).Perm (a :: t) := by
  induction t generalizing k with
  | nil => simp at hk
  | cons b s ih =>
    cases k with
    | zero => simpa using List.Perm.swap a b s
    | succ k =>
      have hk' : k < s.length := by simpa using hk
      have step1 : ((b :: s).get ⟨k+1, hk⟩ :: (b :: s).set (k+1) a).Perm
          (b :: (s.get ⟨k, hk'⟩ :: s.set k a)) := by
        simpa using List.Perm.swap b (s.get ⟨k, hk'⟩) (s.set k a)
      exact (step1.trans ((ih k hk').cons b)).trans (List.Perm.swap a b s)

theorem set_set_perm : ∀ (l : List α) (i j : Nat) (hi : i < l.length) (hj : j < l.length),
    ((l.set i (l.get ⟨j, hj⟩)).set j (l.get ⟨i, hi⟩)).Perm l
  | x :: t, 0, 0, _, _ => by simp
  | x :: t, 0, Nat.succ m, hi, hj => by
    simpa using cons_set_perm x t m (by simpa using hj)
  | x :: t, Nat.succ n, 0, hi, hj => by
    simpa using cons_set_perm x t n (by simpa using hi)
  | x :: t, Nat.succ n, Nat.succ m, hi, hj => by
    simpa using (set_set_perm t n m (by simpa using hi) (by simpa using hj)).cons x

theorem swapPair_perm (l : List α) (i j : Nat) : (swapPair l i j).Perm l := by
  unfold swapPair
  split
  case _ a b hi hj =>
    obtain ⟨hi', rfl⟩ := List.getElem?_eq_some.mp hi
    obtain ⟨hj', rfl⟩ := List.getElem?_eq_some.mp hj
    simpa using set_set_perm l i j hi' hj'
  case _ => exact List.Perm.refl l

theorem fisherYatesAux_perm (rand : Nat → Nat) :
    ∀ (n : Nat) (l : List α), (fisherYatesAux rand n l).Perm l
  | 0, _ => List.Perm.refl _
  | Nat.succ n, l =>
    (fisherYatesAux_perm rand n _).trans (swapPair_perm l (n+1) (rand (n+1) % (n+2)))

theorem arrayShuffle_perm (rand : Nat → Nat) (l : List α) : (arrayShuffle rand l).Perm l :=
  fisherYatesAux_perm rand _ l

/-- The `while (dest.length < length)` loop of `getShuffledListWithLength`,
with explicit fuel: each iteration shuffles the (in-place mutated, threaded)
catalog array again and appends its whole contents to `dest`.  `none` means
the fuel ran out before the loop condition became false; otherwise the result
is the accumulated list together with the final state of the catalog array. -/
def shuffleLoop (rand : Nat → Nat → Nat) (len : Nat) :
    Nat → Nat → List α → List α → Option (List α × List α)
  | fuel, k, arr, dest =>
    if dest.length < len then
      match fuel with
      | 0 => none
      | Nat.succ f =>
        let arr2 := arrayShuffle (rand k) arr
        shuffleLoop rand len f (k+1) arr2 (dest ++ arr2)
    else some (dest, arr)

/-- `getShuffledListWithLength`: accumulate repeated in-place shuffles of
`arr` until at least `length` elements have been gathered, then truncate to
exactly `length`.  The second component of the result is the final (mutated)
state of the input array; `none` models non-termination (fuel exhausted). -/
def getShuffledListWithLength (rand : Nat → Nat → Nat) (arr : List α) (length fuel : Nat) :
    Option (List α × List α) :=
  (shuffleLoop rand length fuel 0 arr []).map (fun r => (r.1.take length, r.2))

theorem shuffleLoop_spec (rand : Nat → Nat → Nat) (len : Nat) :
    ∀ (fuel k : Nat) (arr dest out arrF : List α),
    shuffleLoop rand len fuel k arr dest = some (out, arrF) →
    len ≤ out.length ∧ arrF.Perm arr ∧
      ∃ bs : List (List α), out = dest ++ bs.flatten ∧ ∀ b ∈ bs, b.Perm arr := by
  intro fuel
  induction fuel with
  | zero =>
    intro k arr dest out arrF h
    rw [shuffleLoop] at h
    by_cases hc : dest.length < len
    · simp [hc] at h
    · simp [hc] at h
      obtain ⟨rfl, rfl⟩ := h
      exact ⟨Nat.le_of_not_lt hc, List.Perm.refl _, [], by simp, by simp⟩
  | succ f ih =>
    intro k arr dest out arrF h
    rw [shuffleLoop] at h
    by_cases hc : dest.length < len
    · simp only [if_pos hc] at h
      obtain ⟨hlen, hperm, bs, hout, hbs⟩ :=
        ih (k+1) (arrayShuffle (rand k) arr) (dest ++ arrayShuffle (rand k) arr) out arrF h
      have hsh : (arrayShuffle (rand k) arr).Perm arr := arrayShuffle_perm (rand k) arr
      refine ⟨hlen, hperm.trans hsh, arrayShuffle (rand k) arr :: bs, ?_, ?_⟩
      · simpa [List.append_assoc] using hout
      · intro b hb
        rcases List.mem_cons.mp hb with rfl | hb
        · exact hsh
        · exact (hbs b hb).trans hsh
    · simp [hc] at h
      obtain ⟨rfl, rfl⟩ := h
      exact ⟨Nat.le_of_not_lt hc, List.Perm.refl _, [], by simp, by simp⟩

theorem countP_take_flatten_ge (arr : List α) (p : α → Bool) (hp : 0 < arr.countP p) :
    ∀ (bs : List (List α)) (n : Nat), (∀ b ∈ bs, b.Perm arr) → n ≤ bs.flatten.length →
    n / arr.length ≤ (bs.flatten.take n).countP p := by
  have hc : 0 < arr.length := lt_of_lt_of_le hp (List.countP_le_length p)
  intro bs
  induction bs with
  | nil =>
    intro n _ hn
    simp at hn
    subst hn
    simp
  | cons b bs ih =>
    intro n hperm hn
    have hb : b.Perm arr := hperm b (List.mem_cons_self b bs)
    have hblen : b.length = arr.length := hb.length_eq
    have hbcount : b.countP p = arr.countP p := hb.countP_eq p
    have hflat : (b :: bs).flatten = b ++ bs.flatten := by simp
    rcases lt_or_le n arr.length with hlt | hge
    · rw [Nat.div_eq_of_lt hlt]
      exact Nat.zero_le _
    · have htake : ((b :: bs).flatten.take n) = b ++ bs.flatten.take (n - arr.length) := by
        rw [hflat, List.take_append_eq_append_take, hblen,
          List.take_of_length_le (le_trans (le_of_eq hblen) hge)]
      have hn' : n - arr.length ≤ bs.flatten.length := by
        rw [hflat] at hn
        simp only [List.length_append] at hn
        omega
      have ihh := ih (n - arr.length) (fun x hx => hperm x (List.mem_cons_of_mem b hx)) hn'
      rw [htake, List.countP_append]
      have hdiv : n / arr.length = (n - arr.length) / arr.length + 1 :=
        Nat.div_eq_sub_div hc hge
      rw [hdiv, hbcount]
      omega

/-- With an empty catalog the loop makes no progress: the shuffled empty array
is empty, `dest` stays empty, and every finite fuel is exhausted whenever
`0 < len`.  This is the divergence of the `while` loop on `catalogSize == 0`. -/
theorem shuffleLoop_nil (rand : Nat → Nat → Nat) (len : Nat) (hlen : 0 < len) :
    ∀ (fuel k : Nat), shuffleLoop rand len fuel k ([] : List α) [] = none := by
  intro fuel
  induction fuel with
  | zero =>
    intro k
    rw [shuffleLoop]
    simp [hlen]
  | succ f ih =>
    intro k
    rw [shuffleLoop]
    simp only [List.length_nil, hlen, if_pos]
    have : arrayShuffle (rand k) ([] : List α) = [] := by
      simp [arrayShuffle, fisherYatesAux]
    rw [this]
    simpa using ih (k+1)

/-- The `BingoSheet` model: a `width × height` grid of slots, stored as a list
of rows (`slots[y][x]`).  The derived field `length = width * height` is the
function `sheetLength` below; timestamps and the persistence adapter are
external collaborators and carry no algorithmic content. -/
structure BingoSheet where
  width : Nat
  height : Nat
  slots : List (List BingoSlot)
deriving DecidableEq, Repr

/-- The derived `length` field of a sheet: `width * height`. -/
def sheetLength (s : BingoSheet) : Nat :=
  s.width * s.height

/-- Row `y` of a grid (`slots[y]`); the empty row when out of range. -/
def rowAt (g : List (List BingoSlot)) (y : Nat) : List BingoSlot :=
  g.getD y []

/-- The cell `slots[y][x]` of a grid, as an `Option`. -/
def cellGet (g : List (List BingoSlot)) (x y : Nat) : Option BingoSlot :=
  g[y]?.bind (fun row => row[x]?)

/-- The cell `slots[y][x]` of a grid, with a default slot out of range
(mirroring a partial JavaScript indexing that is only reached in range). -/
def cellD (g : List (List BingoSlot)) (x y : Nat) : BingoSlot :=
  (g.getD y []).getD x default

/-- `this.slots[y][x].f = ...`: rewrite the single cell at `(x, y)` with `f`,
leaving the grid unchanged when the indices are out of range. -/
def updateSlot (g : List (List BingoSlot)) (x y : Nat) (f : BingoSlot → BingoSlot) :
    List (List BingoSlot) :=
  match g[y]? with
  | some row =>
    match row[x]? with
    | some c => g.set y (row.set x (f c))
    | none => g
  | none => g

/-- `createSlot`: build the slot for the `index`-th drawn variation, at grid
position `(index % width, Math.floor(index / width))`. -/
def createSlot (variation : Variation) (index width : Nat) : BingoSlot :=
  mkBingoSlot variation.value variation.label variation.description variation.imageURL
    ⟨index % width, index / width⟩

/-- `slots[slot.position.y].push(slot)`: append a slot to row `y`. -/
def pushRow (g : List (List BingoSlot)) (y : Nat) (s : BingoSlot) : List (List BingoSlot) :=
  g.set y (g.getD y [] ++ [s])

/-- The `map((v, i) => ... push ...)` of `init`: place each drawn variation,
in order, as a slot pushed onto the row its position selects. -/
def buildGridAux (w : Nat) : List Variation → Nat → List (List BingoSlot) → List (List BingoSlot)
  | [], _, g => g
  | v :: rest, i, g =>
    let slot := createSlot v i w
    buildGridAux w rest (i+1) (pushRow g slot.position.y slot)

/-- `init`: draw `width * height` variations by length-constrained shuffling
and place them row-major onto a fresh grid of `height` empty rows.  The second
component is the final (mutated) state of the caller's variation catalog;
`none` models non-termination of the shuffle loop. -/
def init (rand : Nat → Nat → Nat) (config : IBingoConfig) (fuel : Nat) :
    Option (BingoSheet × List Variation) :=
  match getShuffledListWithLength rand config.variations (config.width * config.height) fuel with
  | none => none
  | some (lst, arrF) =>
    some ({ width := config.width, height := config.height,
            slots := buildGridAux config.width lst 0 (List.replicate config.height []) }, arrF)

/-- `hit`: the first slot of the row-major flattening whose value strictly
equals the payload value, if any. -/
def hit (s : BingoSheet) (payload : Payload) : Option BingoSlot :=
  s.slots.flatten.find? (fun slot => slot.value == payload.value)

/-- `punch`: set `punched = true`, via `this.slots[y][x]`, for every slot of
the flattened grid whose value equals the hit value. -/
def punch (s : BingoSheet) (h : BingoSlot) : BingoSheet :=
  let g2 :=
    (s.slots.flatten.filter (fun slot => slot.value == h.value)).foldl
      (fun g slot => updateSlot g slot.position.x slot.position.y
        (fun c => { c with punched := true })) s.slots
  { s with slots := g2 }

/-- `getHorizontalBingo`: scan rows `0 ≤ row < height` in order and return the
first fully punched one, else the empty list. -/
def getHorizontalBingo (s : BingoSheet) : List BingoSlot :=
  match (List.range s.height).find? (fun row => (rowAt s.slots row).all (fun c => c.punched)) with
  | some row => rowAt s.slots row
  | none => []

/-- `getVerticalBingo`: scan columns `0 ≤ col < width` in order; return the
column whose every row entry is punched, else the empty list. -/
def getVerticalBingo (s : BingoSheet) : List BingoSlot :=
  match (List.range s.width).find? (fun col => s.slots.all (fun row => (row.getD col default).punched)) with
  | some col => s.slots.map (fun row => row.getD col default)
  | none => []

/-- The main (backslash) diagonal `slots.map((row, i) => row[i])`. -/
def backslashDiag (s : BingoSheet) : List BingoSlot :=
  (List.range s.slots.length).map (fun i => cellD s.slots i i)

/-- The anti (slash) diagonal `slots.map((row, i) => row[len - i - 1])`. -/
def slashDiag (s : BingoSheet) (len : Nat) : List BingoSlot :=
  (List.range s.slots.length).map (fun i => cellD s.slots (len - i - 1) i)

/-- `getDiagonalBingo`: on a square sheet, concatenate whichever of the two
diagonals are fully punched; on a non-square sheet, always the empty list. -/
def getDiagonalBingo (s : BingoSheet) : List BingoSlot :=
  if s.width = s.height then
    let len := min s.width s.height
    let b1 := if (backslashDiag s).all (fun c => c.punched) then backslashDiag s else []
    let b2 := if (slashDiag s len).all (fun c => c.punched) then slashDiag s len else []
    b1 ++ b2
  else []

/-- The concatenated bingo list of `getBingo`, before flag marking. -/
def getBingoList (s : BingoSheet) : List BingoSlot :=
  getHorizontalBingo s ++ getVerticalBingo s ++ getDiagonalBingo s

/-- `markSlotsIfBingo`: set `bingo = true`, via `this.slots[y][x]`, on every
slot of the given list. -/
def markSlotsIfBingo (s : BingoSheet) (bingo : List BingoSlot) : BingoSheet :=
  let g2 :=
    bingo.foldl
      (fun g slot => updateSlot g slot.position.x slot.position.y
        (fun c => { c with bingo := true })) s.slots
  { s with slots := g2 }

/-- `getBingo`: the concatenated complete lines, together with the sheet after
marking their slots. -/
def getBingo (s : BingoSheet) : List BingoSlot × BingoSheet :=
  (getBingoList s, markSlotsIfBingo s (getBingoList s))

/-- `isBingo`: whether `getBingo` found any line (with its marking effect). -/
def isBingo (s : BingoSheet) : Bool × BingoSheet :=
  (decide ((getBingo s).1.length ≠ 0), (getBingo s).2)

/-- Well-formedness of a sheet: `height` rows of `width` slots each. -/
def WF (s : BingoSheet) : Prop :=
  s.slots.length = s.height ∧ ∀ row ∈ s.slots, row.length = s.width

instance : DecidablePred WF := fun s => by
  unfold WF
  infer_instance

/-- The position invariant: every stored cell records its own coordinates. -/
def PositionInv (s : BingoSheet) : Prop :=
  ∀ x y c, cellGet s.slots x y = some c → c.position = ⟨x, y⟩

/-- Decidable (bounded) check of the position invariant. -/
def positionInvB (s : BingoSheet) : Bool :=
  (List.range s.slots.length).all (fun y =>
    (List.range (rowAt s.slots y).length).all (fun x =>
      decide (((rowAt s.slots y).getD x default).position = ⟨x, y⟩)))

/-- The algorithmically relevant projection of a slot: its value and its
recorded position (`punched`/`bingo` flags and display metadata dropped). -/
def proj (c : BingoSlot) : String × Position :=
  (c.value, c.position)

theorem length_updateSlot (g : List (List BingoSlot)) (x y : Nat) (f : BingoSlot → BingoSlot) :
    (updateSlot g x y f).length = g.length := by
  unfold updateSlot
  split
  · split
    · simp
    · rfl
  · rfl

theorem cellGet_updateSlot (g : List (List BingoSlot)) (x y : Nat) (f : BingoSlot → BingoSlot)
    (x' y' : Nat) :
    cellGet (updateSlot g x y f) x' y' =
      if x = x' ∧ y = y' then (cellGet g x' y').map f else cellGet g x' y' := by
  by_cases hxy : x = x' ∧ y = y'
  · obtain ⟨rfl, rfl⟩ := hxy
    have hpos : x = x ∧ y = y := ⟨rfl, rfl⟩
    rw [if_pos hpos]
    unfold updateSlot
    split
    next row hrow =>
      split
      next c hc =>
        have hylt : y < g.length := (List.getElem?_eq_some.mp hrow).1
        have hxlt : x < row.length := (List.getElem?_eq_some.mp hc).1
        simp [cellGet, hrow, hc, List.getElem?_set_self hylt, List.getElem?_set_self hxlt]
      next hc => simp [cellGet, hrow, hc]
    next hrow => simp [cellGet, hrow]
  · rw [if_neg hxy]
    unfold updateSlot
    split
    next row hrow =>
      split
      next c hc =>
        by_cases hy : y = y'
        · subst hy
          have hylt : y < g.length := (List.getElem?_eq_some.mp hrow).1
          have hx : x ≠ x' := fun he => hxy ⟨he, rfl⟩
          simp [cellGet, List.getElem?_set_self hylt, hrow, List.getElem?_set_ne hx]
        · simp [cellGet, List.getElem?_set_ne hy]
      next hc => rfl
    next hrow => rfl

theorem cellGet_foldl_update (f : BingoSlot → BingoSlot) (hf : ∀ c, f (f c) = f c) :
    ∀ (ps : List BingoSlot) (g : List (List BingoSlot)) (x y : Nat),
    cellGet (ps.foldl (fun g' p => updateSlot g' p.position.x p.position.y f) g) x y =
      if ps.any (fun p => p.position.x == x && p.position.y == y)
      then (cellGet g x y).map f else cellGet g x y := by
  intro ps
  induction ps with
  | nil =>
    intro g x y
    simp
  | cons p ps ih =>
    intro g x y
    rw [List.foldl_cons, ih, cellGet_updateSlot, List.any_cons]
    by_cases hp : p.position.x = x ∧ p.position.y = y
    · have hb : (p.position.x == x && p.position.y == y) = true := by
        simp [hp.1, hp.2]
      rw [if_pos hp, hb, Bool.true_or]
      by_cases ha : ps.any (fun q => q.position.x == x && q.position.y == y) = true
      · rw [if_pos ha, if_pos rfl, Option.map_map]
        rcases cellGet g x y with _ | c
        · rfl
        · simp [Function.comp, hf]
      · rw [if_neg ha, if_pos rfl]
    · have hb : (p.position.x == x && p.position.y == y) = false := by
        rcases Decidable.not_and_iff_or_not.mp hp with h | h <;> simp [h]
      rw [if_neg hp, hb, Bool.false_or]

theorem length_foldl_update (f : BingoSlot → BingoSlot) :
    ∀ (ps : List BingoSlot) (g : List (List BingoSlot)),
    (ps.foldl (fun g' p => updateSlot g' p.position.x p.position.y f) g).length = g.length := by
  intro ps
  induction ps with
  | nil => intro g; rfl
  | cons p ps ih => intro g; rw [List.foldl_cons, ih, length_updateSlot]

theorem grid_ext (g₁ g₂ : List (List BingoSlot)) (hl : g₁.length = g₂.length)
    (h : ∀ x y, cellGet g₁ x y = cellGet g₂ x y) : g₁ = g₂ := by
  apply List.ext_getElem?
  intro y
  rcases h1 : g₁[y]? with _ | r₁
  · rw [List.getElem?_eq_none_iff] at h1
    symm
    rw [List.getElem?_eq_none_iff]
    omega
  · have hy : y < g₂.length := by
      have := (List.getElem?_eq_some.mp h1).1
      omega
    rcases h2 : g₂[y]? with _ | r₂
    · rw [List.getElem?_eq_none_iff] at h2
      omega
    · have hr : r₁ = r₂ := by
        apply List.ext_getElem?
        intro x
        have e := h x y
        simpa [cellGet, h1, h2] using e
      rw [hr]

theorem map_proj_set : ∀ (row : List BingoSlot) (x : Nat) (c : BingoSlot),
    row[x]? = some c → ∀ d : BingoSlot, proj d = proj c →
    (row.set x d).map proj = row.map proj
  | a :: t, 0, c, hc, d, hd => by
    simp only [List.getElem?_cons_zero, Option.some.injEq] at hc
    subst hc
    simp [hd]
  | a :: t, Nat.succ x, c, hc, d, hd => by
    simp only [List.getElem?_cons_succ] at hc
    simp [map_proj_set t x c hc d hd]

theorem flatten_map_proj_set : ∀ (g : List (List BingoSlot)) (y : Nat) (row row2 : List BingoSlot),
    g[y]? = some row → row2.map proj = row.map proj →
    (g.set y row2).flatten.map proj = g.flatten.map proj
  | r :: t, 0, row, row2, hy, hmap => by
    simp only [List.getElem?_cons_zero, Option.some.injEq] at hy
    subst hy
    simp [hmap]
  | r :: t, Nat.succ y, row, row2, hy, hmap => by
    simp only [List.getElem?_cons_succ] at hy
    simp [flatten_map_proj_set t y row row2 hy hmap]

theorem flatten_map_proj_updateSlot (g : List (List BingoSlot)) (x y : Nat)
    (f : BingoSlot → BingoSlot) (hproj : ∀ c, proj (f c) = proj c) :
    (updateSlot g x y f).flatten.map proj = g.flatten.map proj := by
  unfold updateSlot
  split
  next row hrow =>
    split
    next c hc =>
      exact flatten_map_proj_set g y row _ hrow (map_proj_set row x c hc (f c) (hproj c))
    next => rfl
  next => rfl

theorem flatten_map_proj_foldl (f : BingoSlot → BingoSlot) (hproj : ∀ c, proj (f c) = proj c) :
    ∀ (ps : List BingoSlot) (g : List (List BingoSlot)),
    ((ps.foldl (fun g' p => updateSlot g' p.position.x p.position.y f) g).flatten.map proj)
      = g.flatten.map proj := by
  intro ps
  induction ps with
  | nil => intro g; rfl
  | cons p ps ih =>
    intro g
    rw [List.foldl_cons, ih, flatten_map_proj_updateSlot _ _ _ _ hproj]

theorem filter_any_proj (v : String) (x y : Nat) (l : List BingoSlot) :
    ((l.filter (fun c => c.value == v)).any (fun p => p.position.x == x && p.position.y == y))
      = (((l.map proj).filter (fun q => q.1 == v)).any
          (fun q => q.2.x == x && q.2.y == y)) := by
  induction l with
  | nil => rfl
  | cons a t ih =>
    cases hv : (a.value == v) with
    | true => simp [List.filter_cons, proj, hv, List.any_cons, ih]
    | false => simp [List.filter_cons, proj, hv, ih]

theorem cellGet_punch (s : BingoSheet) (h : BingoSlot) (x y : Nat) :
    cellGet (punch s h).slots x y =
      if (s.slots.flatten.filter (fun c => c.value == h.value)).any
          (fun p => p.position.x == x && p.position.y == y)
      then (cellGet s.slots x y).map (fun c => { c with punched := true })
      else cellGet s.slots x y :=
  cellGet_foldl_update (fun c => { c with punched := true }) (fun _ => rfl)
    (s.slots.flatten.filter (fun c => c.value == h.value)) s.slots x y

theorem cellGet_mark (s : BingoSheet) (bl : List BingoSlot) (x y : Nat) :
    cellGet (markSlotsIfBingo s bl).slots x y =
      if bl.any (fun p => p.position.x == x && p.position.y == y)
      then (cellGet s.slots x y).map (fun c => { c with bingo := true })
      else cellGet s.slots x y :=
  cellGet_foldl_update (fun c => { c with bingo := true }) (fun _ => rfl) bl s.slots x y

theorem punch_proj (s : BingoSheet) (h : BingoSlot) :
    (punch s h).slots.flatten.map proj = s.slots.flatten.map proj :=
  flatten_map_proj_foldl (fun c => { c with punched := true }) (fun _ => rfl)
    (s.slots.flatten.filter (fun c => c.value == h.value)) s.slots

theorem length_punch_slots (s : BingoSheet) (h : BingoSlot) :
    (punch s h).slots.length = s.slots.length :=
  length_foldl_update (fun c => { c with punched := true })
    (s.slots.flatten.filter (fun c => c.value == h.value)) s.slots

theorem bingoSheet_eq (a b : BingoSheet) (hw : a.width = b.width) (hh : a.height = b.height)
    (hs : a.slots = b.slots) : a = b := by
  cases a
  cases b
  simp_all

theorem mem_flatten_of_cellGet (g : List (List BingoSlot)) (x y : Nat) (c : BingoSlot)
    (hc : cellGet g x y = some c) : c ∈ g.flatten := by
  unfold cellGet at hc
  cases hrow : g[y]? with
  | none => rw [hrow] at hc; simp at hc
  | some row =>
    rw [hrow, Option.some_bind] at hc
    exact List.mem_flatten.mpr
      ⟨row, List.mem_iff_getElem?.mpr ⟨y, hrow⟩, List.mem_iff_getElem?.mpr ⟨x, hc⟩⟩

theorem cellGet_of_mem_flatten (g : List (List BingoSlot)) (p : BingoSlot)
    (hp : p ∈ g.flatten) : ∃ x0 y0, cellGet g x0 y0 = some p := by
  obtain ⟨row, hrowmem, hpmem⟩ := List.mem_flatten.mp hp
  obtain ⟨y0, hy⟩ := List.mem_iff_getElem?.mp hrowmem
  obtain ⟨x0, hx⟩ := List.mem_iff_getElem?.mp hpmem
  refine ⟨x0, y0, ?_⟩
  unfold cellGet
  rw [hy, Option.some_bind, hx]

theorem positionInv_of_check (s : BingoSheet) (h : positionInvB s = true) : PositionInv s := by
  intro x y c hc
  unfold cellGet at hc
  cases hrow : s.slots[y]? with
  | none => rw [hrow] at hc; simp at hc
  | some row =>
    rw [hrow, Option.some_bind] at hc
    have hy : y < s.slots.length := (List.getElem?_eq_some.mp hrow).1
    have hx : x < row.length := (List.getElem?_eq_some.mp hc).1
    have hrowAt : rowAt s.slots y = row := by
      unfold rowAt
      rw [List.getD_eq_getElem?_getD, hrow]
      rfl
    have hcd : (rowAt s.slots y).getD x default = c := by
      rw [hrowAt, List.getD_eq_getElem?_getD, hc]
      rfl
    unfold positionInvB at h
    rw [List.all_eq_true] at h
    have h1 := h y (List.mem_range.mpr hy)
    rw [List.all_eq_true] at h1
    have h2 := h1 x (List.mem_range.mpr (by rw [hrowAt]; exact hx))
    rw [hcd] at h2
    exact of_decide_eq_true h2

/-- Claim C3: `punch(h)` sets `punched = true` on every slot of the grid whose
value equals `h.value` (not only the slot instance passed in), and leaves
slots with a different value unchanged, on any sheet satisfying the position
invariant.  In particular a value occurring at two distinct positions is
punched at both. -/
theorem punch_marks_every_matching_slot (s : BingoSheet) (h : BingoSlot)
    (hinv : PositionInv s) (x y : Nat) (c : BingoSlot)
    (hc : cellGet s.slots x y = some c) :
    (c.value = h.value → cellGet (punch s h).slots x y = some { c with punched := true }) ∧
    (c.value ≠ h.value → cellGet (punch s h).slots x y = some c) := by
  constructor
  · intro hv
    have hmem : c ∈ s.slots.flatten := mem_flatten_of_cellGet s.slots x y c hc
    have hpos : c.position = ⟨x, y⟩ := hinv x y c hc
    have hany : (s.slots.flatten.filter (fun q => q.value == h.value)).any
        (fun p => p.position.x == x && p.position.y == y) = true := by
      rw [List.any_eq_true]
      exact ⟨c, List.mem_filter.mpr ⟨hmem, by simp [hv]⟩, by simp [hpos]⟩
    rw [cellGet_punch, if_pos hany, hc]
    rfl
  · intro hv
    cases hany : (s.slots.flatten.filter (fun q => q.value == h.value)).any
        (fun p => p.position.x == x && p.position.y == y) with
    | false =>
      rw [cellGet_punch, if_neg (by simp only [hany]; exact Bool.false_ne_true)]
      exact hc
    | true =>
      exfalso
      obtain ⟨p, hpfilter, hpcond⟩ := List.any_eq_true.mp hany
      obtain ⟨hpflat, hpval⟩ := List.mem_filter.mp hpfilter
      obtain ⟨x0, y0, hp0⟩ := cellGet_of_mem_flatten s.slots p hpflat
      have hppos : p.position = ⟨x0, y0⟩ := hinv x0 y0 p hp0
      have hpx : p.position.x = x ∧ p.position.y = y := by simpa using hpcond
      have hx0 : x0 = x := by rw [hppos] at hpx; exact hpx.1
      have hy0 : y0 = y := by rw [hppos] at hpx; exact hpx.2
      rw [hx0, hy0, hc] at hp0
      have hcp : c = p := Option.some.inj hp0
      rw [← hcp] at hpval
      exact hv (beq_iff_eq.mp hpval)

/-- Claim C6: punching the same value twice yields exactly the same sheet as
punching it once (idempotence of `punch` with respect to visible state). -/
theorem punch_idempotent (s : BingoSheet) (h : BingoSlot) :
    punch (punch s h) h = punch s h := by
  refine bingoSheet_eq _ _ rfl rfl ?_
  apply grid_ext
  · rw [length_punch_slots, length_punch_slots]
  · intro x y
    have hA : ((punch s h).slots.flatten.filter (fun c => c.value == h.value)).any
        (fun p => p.position.x == x && p.position.y == y)
      = (s.slots.flatten.filter (fun c => c.value == h.value)).any
        (fun p => p.position.x == x && p.position.y == y) := by
      rw [filter_any_proj, filter_any_proj, punch_proj]
    rw [cellGet_punch (punch s h) h x y, hA, cellGet_punch s h x y]
    by_cases ha : (s.slots.flatten.filter (fun c => c.value == h.value)).any
        (fun p => p.position.x == x && p.position.y == y) = true
    · rw [if_pos ha, if_pos ha, Option.map_map]
      cases cellGet s.slots x y with
      | none => rfl
      | some c => simp [Function.comp]
    · rw [if_neg ha, if_neg ha]

/-- Claim C9: the `punched` and `bingo` flags are monotone: neither `punch`
nor the marking performed by `getBingo` (hence `isBingo`, which shares its
detection path) ever turns a flag from `true` to `false`; `hit` and the three
line scans return lists without producing a new sheet at all in this pure
embedding. -/
theorem flags_monotone (s : BingoSheet) (h : BingoSlot) (x y : Nat) (c : BingoSlot)
    (hc : cellGet s.slots x y = some c) :
    (∃ c1, cellGet (punch s h).slots x y = some c1 ∧
      (c.punched = true → c1.punched = true) ∧ (c.bingo = true → c1.bingo = true)) ∧
    (∃ c2, cellGet (getBingo s).2.slots x y = some c2 ∧
      (c.punched = true → c2.punched = true) ∧ (c.bingo = true → c2.bingo = true)) ∧
    (isBingo s).2 = (getBingo s).2 := by
  refine ⟨?_, ?_, rfl⟩
  · rw [cellGet_punch]
    by_cases ha : (s.slots.flatten.filter (fun q => q.value == h.value)).any
        (fun p => p.position.x == x && p.position.y == y) = true
    · rw [if_pos ha, hc]
      exact ⟨_, rfl, fun _ => rfl, fun hb => hb⟩
    · rw [if_neg ha]
      exact ⟨c, hc, fun hp => hp, fun hb => hb⟩
  · have hmk : (getBingo s).2 = markSlotsIfBingo s (getBingoList s) := rfl
    rw [hmk, cellGet_mark]
    by_cases ha : (getBingoList s).any (fun p => p.position.x == x && p.position.y == y) = true
    · rw [if_pos ha, hc]
      exact ⟨_, rfl, fun hp => hp, fun _ => rfl⟩
    · rw [if_neg ha]
      exact ⟨c, hc, fun hp => hp, fun hb => hb⟩

theorem find?_eq_head_filter (p : α → Bool) : ∀ l : List α, l.find? p = (l.filter p).head? := by
  intro l
  induction l with
  | nil => rfl
  | cons a t ih =>
    cases hp : p a with
    | true =>
      rw [List.find?_cons, hp, List.filter_cons, if_pos hp]
      rfl
    | false =>
      rw [List.find?_cons, hp, List.filter_cons, if_neg (by simp [hp])]
      exact ih

/-- Claim C7: `hit(payload)` returns the first slot of the row-major flattened
grid whose value strictly equals the payload value — equivalently the head of
the value-filtered flattening — and returns `none` (absence, not an
exception) exactly when no slot matches.  It is a pure function of the sheet:
no mutation is possible in this embedding (`hit` produces no sheet). -/
theorem hit_first_match (s : BingoSheet) (payload : Payload) :
    hit s payload = (s.slots.flatten.filter (fun c => c.value == payload.value)).head? ∧
    (hit s payload = none ↔ ∀ c ∈ s.slots.flatten, c.value ≠ payload.value) := by
  constructor
  · exact find?_eq_head_filter _ _
  · unfold hit
    rw [List.find?_eq_none]
    constructor
    · intro hh c hcmem hv
      exact hh c hcmem (beq_iff_eq.mpr hv)
    · intro hh c hcmem hbeq
      exact hh c hcmem (beq_iff_eq.mp hbeq)

theorem all_eq_false_of_exists (l : List β) (q : β → Bool) (h : ∃ c ∈ l, q c = false) :
    l.all q = false := by
  obtain ⟨c, hcmem, hcf⟩ := h
  cases hall : l.all q with
  | false => rfl
  | true =>
    have := List.all_eq_true.mp hall c hcmem
    rw [hcf] at this
    exact absurd this Bool.false_ne_true

theorem find?_range_eq_none (p : Nat → Bool) (n : Nat) (h : ∀ j, j < n → p j = false) :
    (List.range n).find? p = none := by
  rw [List.find?_eq_none]
  intro j hj
  rw [h j (List.mem_range.mp hj)]
  exact Bool.false_ne_true

theorem find?_range_eq_some (p : Nat → Bool) (n r : Nat) (hr : r < n) (hp : p r = true)
    (hmin : ∀ j, j < r → p j = false) : (List.range n).find? p = some r := by
  induction n with
  | zero => omega
  | succ n ih =>
    rw [List.range_succ, List.find?_append]
    rcases Nat.lt_or_ge r n with h | h
    · rw [ih h]
      rfl
    · have hrn : r = n := by omega
      subst hrn
      rw [find?_range_eq_none p r hmin]
      simp [hp]

/-- Claim C5: `getHorizontalBingo` scans rows `0..height-1` in index order and
returns the slots of the first row whose every slot is punched, else the
empty list; `getVerticalBingo` does the same over columns `0..width-1`,
returning the column's slots top to bottom. -/
theorem line_scans_first_match (s : BingoSheet) :
    (∀ r, r < s.height → (∀ c ∈ rowAt s.slots r, c.punched = true) →
      (∀ j, j < r → ∃ c ∈ rowAt s.slots j, c.punched = false) →
      getHorizontalBingo s = rowAt s.slots r) ∧
    ((∀ r, r < s.height → ∃ c ∈ rowAt s.slots r, c.punched = false) →
      getHorizontalBingo s = []) ∧
    (∀ k, k < s.width → (∀ row ∈ s.slots, (row.getD k default).punched = true) →
      (∀ j, j < k → ∃ row ∈ s.slots, (row.getD j default).punched = false) →
      getVerticalBingo s = s.slots.map (fun row => row.getD k default)) ∧
    ((∀ k, k < s.width → ∃ row ∈ s.slots, (row.getD k default).punched = false) →
      getVerticalBingo s = []) := by
  refine ⟨?_, ?_, ?_, ?_⟩
  · intro r hr hall hprev
    have hf : (List.range s.height).find?
        (fun row => (rowAt s.slots row).all (fun c => c.punched)) = some r := by
      apply find?_range_eq_some _ _ r hr
      · exact List.all_eq_true.mpr hall
      · intro j hj
        exact all_eq_false_of_exists _ _ (hprev j hj)
    unfold getHorizontalBingo
    rw [hf]
  · intro hnone
    have hf : (List.range s.height).find?
        (fun row => (rowAt s.slots row).all (fun c => c.punched)) = none := by
      apply find?_range_eq_none
      intro j hj
      exact all_eq_false_of_exists _ _ (hnone j hj)
    unfold getHorizontalBingo
    rw [hf]
  · intro k hk hall hprev
    have hf : (List.range s.width).find?
        (fun col => s.slots.all (fun row => (row.getD col default).punched)) = some k := by
      apply find?_range_eq_some _ _ k hk
      · exact List.all_eq_true.mpr hall
      · intro j hj
        exact all_eq_false_of_exists _ _ (hprev j hj)
    unfold getVerticalBingo
    rw [hf]
  · intro hnone
    have hf : (List.range s.width).find?
        (fun col => s.slots.all (fun row => (row.getD col default).punched)) = none := by
      apply find?_range_eq_none
      intro j hj
      exact all_eq_false_of_exists _ _ (hnone j hj)
    unfold getVerticalBingo
    rw [hf]

/-- Claim C4: on a square sheet, `getDiagonalBingo` checks the main diagonal
`slots[i][i]` and the anti-diagonal `slots[i][len-1-i]` independently and
concatenates each fully punched one — so with both diagonals fully punched on
an odd-length square grid the center slot appears (at least) twice in the
result; on a non-square sheet it returns the empty list for every punch
pattern. -/
theorem diagonal_detection (s : BingoSheet) :
    (s.width ≠ s.height → getDiagonalBingo s = []) ∧
    (s.width = s.height →
      getDiagonalBingo s =
        (if (backslashDiag s).all (fun c => c.punched) then backslashDiag s else []) ++
        (if (slashDiag s (min s.width s.height)).all (fun c => c.punched)
         then slashDiag s (min s.width s.height) else [])) ∧
    (WF s → s.width = s.height → s.height % 2 = 1 →
      (backslashDiag s).all (fun c => c.punched) = true →
      (slashDiag s (min s.width s.height)).all (fun c => c.punched) = true →
      2 ≤ (getDiagonalBingo s).count (cellD s.slots (s.height / 2) (s.height / 2))) := by
  refine ⟨?_, ?_, ?_⟩
  · intro hne
    unfold getDiagonalBingo
    rw [if_neg hne]
  · intro hsq
    unfold getDiagonalBingo
    rw [if_pos hsq]
  · intro hwf hsq hodd hback hslash
    have hn : 0 < s.height := by omega
    have hlen : s.slots.length = s.height := hwf.1
    have hmin : min s.width s.height = s.height := by rw [hsq, Nat.min_self]
    have hhalf : s.height / 2 < s.height := Nat.div_lt_self hn (by omega)
    have hmem1 : cellD s.slots (s.height / 2) (s.height / 2) ∈ backslashDiag s := by
      unfold backslashDiag
      exact List.mem_map.mpr ⟨s.height / 2, List.mem_range.mpr (by omega), rfl⟩
    have hanti : s.height - s.height / 2 - 1 = s.height / 2 := by
      have := Nat.div_add_mod s.height 2
      omega
    have hmem2 : cellD s.slots (s.height / 2) (s.height / 2) ∈ slashDiag s s.height := by
      unfold slashDiag
      refine List.mem_map.mpr ⟨s.height / 2, List.mem_range.mpr (by omega), ?_⟩
      rw [hanti]
    have hres : getDiagonalBingo s = backslashDiag s ++ slashDiag s (min s.width s.height) := by
      unfold getDiagonalBingo
      rw [if_pos hsq]
      show (if (backslashDiag s).all (fun c => c.punched) then backslashDiag s else []) ++
          (if (slashDiag s (min s.width s.height)).all (fun c => c.punched)
           then slashDiag s (min s.width s.height) else []) = _
      rw [if_pos hback, if_pos hslash]
    rw [hres, List.count_append, hmin]
    have h1 : 0 < (backslashDiag s).count (cellD s.slots (s.height / 2) (s.height / 2)) :=
      List.count_pos_iff.mpr hmem1
    have h2 : 0 < (slashDiag s s.height).count (cellD s.slots (s.height / 2) (s.height / 2)) :=
      List.count_pos_iff.mpr hmem2
    omega

theorem pushRow_length (g : List (List BingoSlot)) (y : Nat) (s : BingoSlot) :
    (pushRow g y s).length = g.length :=
  List.length_set g y _

theorem buildGridAux_length (w : Nat) :
    ∀ (lst : List Variation) (i : Nat) (g : List (List BingoSlot)),
    (buildGridAux w lst i g).length = g.length := by
  intro lst
  induction lst with
  | nil => intro i g; rfl
  | cons v rest ih =>
    intro i g
    show (buildGridAux w rest (i+1) (pushRow g _ _)).length = g.length
    rw [ih (i+1), pushRow_length]

theorem buildGridAux_getElem? (w : Nat) :
    ∀ (lst : List Variation) (i : Nat) (g : List (List BingoSlot)) (y : Nat),
    (buildGridAux w lst i g)[y]?
      = (g[y]?).map (fun row => row ++
          (((List.enumFrom i lst).filter (fun p => p.1 / w == y)).map
            (fun p => createSlot p.2 p.1 w))) := by
  intro lst
  induction lst with
  | nil =>
    intro i g y
    show g[y]? = _
    cases g[y]? <;> simp
  | cons v rest ih =>
    intro i g y
    show (buildGridAux w rest (i+1)
        (pushRow g ((createSlot v i w).position.y) (createSlot v i w)))[y]? = _
    rw [ih (i+1)]
    have hpos : (createSlot v i w).position.y = i / w := rfl
    rw [hpos, List.enumFrom_cons]
    simp only [List.filter_cons]
    by_cases hdiv : i / w = y
    · have hiw : (i / w == y) = true := beq_iff_eq.mpr hdiv
      simp only [hiw, eq_self_iff_true, if_true, List.map_cons]
      rw [hdiv]
      cases hg : g[y]? with
      | none =>
        have hge : g.length ≤ y := List.getElem?_eq_none_iff.mp hg
        have hpr : pushRow g y (createSlot v i w) = g := by
          unfold pushRow
          exact List.set_eq_of_length_le hge
        rw [hpr, hg]
        rfl
      | some row =>
        have hlt : y < g.length := (List.getElem?_eq_some.mp hg).1
        have hrow : (pushRow g y (createSlot v i w))[y]?
            = some (g.getD y [] ++ [createSlot v i w]) := by
          unfold pushRow
          exact List.getElem?_set_self hlt
        have hgd : g.getD y [] = row := by
          rw [List.getD_eq_getElem?_getD, hg]
          rfl
        rw [hrow, hgd]
        simp [List.append_assoc]
    · have hiw : (i / w == y) = false := by
        cases hb : (i / w == y) with
        | true => exact absurd (beq_iff_eq.mp hb) hdiv
        | false => rfl
      simp only [hiw, Bool.false_eq_true, if_false]
      have hpr : (pushRow g (i / w) (createSlot v i w))[y]? = g[y]? := by
        unfold pushRow
        exact List.getElem?_set_ne hdiv
      rw [hpr]

theorem enumFrom_filter_div (w y : Nat) (dv : Variation) :
    ∀ (lst : List Variation) (i : Nat),
    (List.enumFrom i lst).filter (fun p => p.1 / w == y)
      = ((List.range' i lst.length).filter (fun j => j / w == y)).map
          (fun j => (j, lst.getD (j - i) dv)) := by
  intro lst
  induction lst with
  | nil => intro i; rfl
  | cons v rest ih =>
    intro i
    rw [List.enumFrom_cons, List.length_cons, List.range'_succ]
    simp only [List.filter_cons]
    have hcongr : ((List.range' (i+1) rest.length).filter (fun j => j / w == y)).map
          (fun j => (j, (v :: rest).getD (j - i) dv))
        = ((List.range' (i+1) rest.length).filter (fun j => j / w == y)).map
          (fun j => (j, rest.getD (j - (i+1)) dv)) := by
      apply List.map_congr_left
      intro j hj
      have hjr : i + 1 ≤ j := (List.mem_range'_1.mp (List.mem_filter.mp hj).1).1
      have hsub : j - i = (j - (i+1)) + 1 := by omega
      rw [hsub, List.getD_cons_succ]
    by_cases hdiv : i / w = y
    · have hiw : (i / w == y) = true := beq_iff_eq.mpr hdiv
      simp only [hiw, eq_self_iff_true, if_true, List.map_cons]
      rw [ih (i+1), hcongr]
      simp
    · have hiw : (i / w == y) = false := by
        cases hb : (i / w == y) with
        | true => exact absurd (beq_iff_eq.mp hb) hdiv
        | false => rfl
      simp only [hiw, Bool.false_eq_true, if_false]
      rw [ih (i+1), hcongr]

theorem range_add_block (a b : Nat) :
    List.range (a + b) = List.range a ++ List.range' a b := by
  have h := List.range'_append 0 a b 1
  simp only [Nat.zero_add, Nat.one_mul] at h
  rw [List.range_eq_range', List.range_eq_range', Nat.add_comm a b, ← h]

theorem div_block_eq (w : Nat) (hw : 0 < w) (t j : Nat) (h1 : w * t ≤ j) (h2 : j < w * t + w) :
    j / w = t := by
  have e1 : t * w = w * t := Nat.mul_comm t w
  have e2 : (t + 1) * w = w * t + w := by rw [Nat.succ_mul, e1]
  have hle : t ≤ j / w := (Nat.le_div_iff_mul_le hw).mpr (by omega)
  have hlt : j / w < t + 1 := (Nat.div_lt_iff_lt_mul hw).mpr (by omega)
  omega

theorem range_filter_div (w : Nat) (hw : 0 < w) :
    ∀ (h : Nat) (y : Nat), y < h →
    (List.range (w * h)).filter (fun j => j / w == y) = List.range' (y * w) w := by
  intro h
  induction h with
  | zero => intro y hy; omega
  | succ h ih =>
    intro y hy
    rw [Nat.mul_succ, range_add_block, List.filter_append]
    rcases Nat.lt_or_ge y h with hlt | hge
    · rw [ih y hlt]
      have hnil : (List.range' (w * h) w).filter (fun j => j / w == y) = [] := by
        rw [List.filter_eq_nil]
        intro j hj
        obtain ⟨hj1, hj2⟩ := List.mem_range'_1.mp hj
        have : j / w = h := div_block_eq w hw h j hj1 (by omega)
        simp [this]
        omega
      rw [hnil, List.append_nil]
    · have hyh : y = h := by omega
      subst hyh
      have hnil : (List.range (w * y)).filter (fun j => j / w == y) = [] := by
        rw [List.filter_eq_nil]
        intro j hj
        have hjlt : j < w * y := List.mem_range.mp hj
        have e : w * y = y * w := Nat.mul_comm w y
        have : j / w < y := (Nat.div_lt_iff_lt_mul hw).mpr (by omega)
        simp
        omega
      have hself : (List.range' (w * y) w).filter (fun j => j / w == y)
          = List.range' (w * y) w := by
        rw [List.filter_eq_self]
        intro j hj
        obtain ⟨hj1, hj2⟩ := List.mem_range'_1.mp hj
        have : j / w = y := div_block_eq w hw y j hj1 (by omega)
        simp [this]
      rw [hnil, hself, List.nil_append, Nat.mul_comm]

theorem buildGrid_row (w h : Nat) (hw : 0 < w) (lst : List Variation) (hlen : lst.length = w * h)
    (y : Nat) (hy : y < h) :
    (buildGridAux w lst 0 (List.replicate h ([] : List BingoSlot)))[y]?
      = some ((List.range' (y * w) w).map
          (fun j => createSlot (lst.getD j default) j w)) := by
  rw [buildGridAux_getElem?, List.getElem?_replicate, if_pos hy,
    enumFrom_filter_div w y default lst 0, hlen, ← List.range_eq_range',
    range_filter_div w hw h y hy]
  simp [List.map_map, Function.comp]

theorem buildGrid_cellGet (w h : Nat) (hw : 0 < w) (lst : List Variation)
    (hlen : lst.length = w * h) (x y : Nat) (hx : x < w) (hy : y < h) :
    cellGet (buildGridAux w lst 0 (List.replicate h [])) x y
      = some (createSlot (lst.getD (y * w + x) default) (y * w + x) w) := by
  unfold cellGet
  rw [buildGrid_row w h hw lst hlen y hy, Option.some_bind, List.getElem?_map,
    List.getElem?_range' (y * w) 1 hx]
  simp

theorem buildGrid_cellGet_bounds (w h : Nat) (hw : 0 < w) (lst : List Variation)
    (hlen : lst.length = w * h) (x y : Nat) (c : BingoSlot)
    (hc : cellGet (buildGridAux w lst 0 (List.replicate h [])) x y = some c) :
    x < w ∧ y < h ∧ c = createSlot (lst.getD (y * w + x) default) (y * w + x) w := by
  have hylen : y < h := by
    by_contra hge
    have hnone : (buildGridAux w lst 0 (List.replicate h ([] : List BingoSlot)))[y]? = none := by
      rw [List.getElem?_eq_none_iff, buildGridAux_length, List.length_replicate]
      omega
    unfold cellGet at hc
    rw [hnone] at hc
    simp at hc
  unfold cellGet at hc
  rw [buildGrid_row w h hw lst hlen y hylen, Option.some_bind, List.getElem?_map] at hc
  have hxlt : x < w := by
    by_contra hxe
    have hnone : (List.range' (y * w) w)[x]? = none := by
      rw [List.getElem?_eq_none_iff, List.length_range']
      omega
    rw [hnone] at hc
    simp at hc
  rw [List.getElem?_range' (y * w) 1 hxlt] at hc
  simp at hc
  rw [← List.getD_eq_getElem?_getD] at hc
  exact ⟨hxlt, hylen, hc.symm⟩

theorem buildGrid_eq_map (w h : Nat) (hw : 0 < w) (lst : List Variation)
    (hlen : lst.length = w * h) :
    buildGridAux w lst 0 (List.replicate h [])
      = (List.range h).map (fun y => (List.range' (y * w) w).map
          (fun j => createSlot (lst.getD j default) j w)) := by
  apply List.ext_getElem?
  intro y
  by_cases hy : y < h
  · rw [buildGrid_row w h hw lst hlen y hy, List.getElem?_map, List.getElem?_range hy]
    rfl
  · have h1 : (buildGridAux w lst 0 (List.replicate h ([] : List BingoSlot)))[y]? = none := by
      rw [List.getElem?_eq_none_iff, buildGridAux_length, List.length_replicate]
      omega
    have h2 : ((List.range h).map (fun y => (List.range' (y * w) w).map
        (fun j => createSlot (lst.getD j default) j w)))[y]? = none := by
      rw [List.getElem?_eq_none_iff, List.length_map, List.length_range]
      omega
    rw [h1, h2]

theorem flatten_range_blocks (f : Nat → BingoSlot) : ∀ (h w : Nat),
    ((List.range h).map (fun y => (List.range' (y * w) w).map f)).flatten
      = (List.range (h * w)).map f := by
  intro h
  induction h with
  | zero => intro w; simp
  | succ h ih =>
    intro w
    rw [List.range_succ, List.map_append, List.flatten_append, ih]
    simp only [List.map_cons, List.map_nil, List.flatten_cons, List.flatten_nil,
      List.append_nil]
    rw [Nat.succ_mul, range_add_block, List.map_append]

theorem map_getD_range (lst : List γ) (dv : γ) :
    (List.range lst.length).map (fun j => lst.getD j dv) = lst := by
  apply List.ext_getElem?
  intro n
  rw [List.getElem?_map]
  by_cases hn : n < lst.length
  · rw [List.getElem?_range hn]
    show some (lst.getD n dv) = lst[n]?
    rw [List.getD_eq_getElem?_getD]
    cases he : lst[n]? with
    | none =>
      rw [List.getElem?_eq_none_iff] at he
      omega
    | some a => rfl
  · have h1 : (List.range lst.length)[n]? = none := by
      rw [List.getElem?_eq_none_iff, List.length_range]
      omega
    have h2 : lst[n]? = none := by
      rw [List.getElem?_eq_none_iff]
      omega
    rw [h1, h2]
    rfl

theorem countP_flatten_grid (w h : Nat) (hw : 0 < w) (lst : List Variation)
    (hlen : lst.length = w * h) (q : String → Bool) :
    (buildGridAux w lst 0 (List.replicate h [])).flatten.countP (fun c => q c.value)
      = lst.countP (fun u => q u.value) := by
  rw [buildGrid_eq_map w h hw lst hlen, flatten_range_blocks, List.countP_map]
  have hcomp : ((fun c => q c.value) ∘ (fun j => createSlot (lst.getD j default) j w))
      = fun j => q ((lst.getD j default).value) := rfl
  rw [hcomp]
  have hlen2 : h * w = lst.length := by rw [hlen, Nat.mul_comm]
  rw [hlen2]
  conv_rhs => rw [← map_getD_range lst default]
  rw [List.countP_map]
  rfl

theorem length_flatten_grid (w h : Nat) (hw : 0 < w) (lst : List Variation)
    (hlen : lst.length = w * h) :
    (buildGridAux w lst 0 (List.replicate h [])).flatten.length = w * h := by
  rw [buildGrid_eq_map w h hw lst hlen, flatten_range_blocks, List.length_map,
    List.length_range, Nat.mul_comm]

theorem flatten_replicate_nil (h : Nat) :
    (List.replicate h ([] : List BingoSlot)).flatten = [] := by
  induction h with
  | zero => rfl
  | succ h ih => simp [List.replicate_succ, ih]

theorem init_inversion (rand : Nat → Nat → Nat) (config : IBingoConfig) (fuel : Nat)
    (sheet : BingoSheet) (rest : List Variation)
    (hinit : init rand config fuel = some (sheet, rest)) :
    ∃ (out lst : List Variation) (bs : List (List Variation)),
      lst = out.take (config.width * config.height) ∧
      getShuffledListWithLength rand config.variations (config.width * config.height) fuel
        = some (lst, rest) ∧
      sheet = ⟨config.width, config.height,
        buildGridAux config.width lst 0 (List.replicate config.height [])⟩ ∧
      lst.length = config.width * config.height ∧
      config.width * config.height ≤ out.length ∧
      rest.Perm config.variations ∧
      out = bs.flatten ∧ (∀ b ∈ bs, b.Perm config.variations) := by
  unfold init at hinit
  cases hgs : getShuffledListWithLength rand config.variations
      (config.width * config.height) fuel with
  | none =>
    rw [hgs] at hinit
    exact absurd hinit (by simp)
  | some pr =>
    obtain ⟨lst0, arrF⟩ := pr
    rw [hgs] at hinit
    have hpair := Option.some.inj hinit
    have hsheet : sheet = ⟨config.width, config.height,
        buildGridAux config.width lst0 0 (List.replicate config.height [])⟩ :=
      (congrArg Prod.fst hpair).symm
    have hrest : rest = arrF := (congrArg Prod.snd hpair).symm
    unfold getShuffledListWithLength at hgs
    cases hloop : shuffleLoop rand (config.width * config.height) fuel 0
        config.variations [] with
    | none =>
      rw [hloop] at hgs
      exact absurd hgs (by simp)
    | some pr2 =>
      obtain ⟨out, arrF0⟩ := pr2
      rw [hloop] at hgs
      have hpair2 := Option.some.inj hgs
      have hlst : out.take (config.width * config.height) = lst0 :=
        congrArg Prod.fst hpair2
      have harr : arrF0 = arrF := congrArg Prod.snd hpair2
      obtain ⟨hlen, hperm, bs, hout, hbs⟩ :=
        shuffleLoop_spec rand (config.width * config.height) fuel 0
          config.variations [] out arrF0 hloop
      rw [List.nil_append] at hout
      refine ⟨out, lst0, bs, hlst.symm, ?_, hsheet, ?_, hlen, ?_, hout, hbs⟩
      · rw [hrest]
      · rw [← hlst, List.length_take]
        omega
      · rw [hrest, ← harr]
        exact hperm

/-- Claim C1: with an empty variation catalog and a positive grid size, the
`while` loop of `getShuffledListWithLength` never makes progress (the shuffled
empty array adds no elements), so `init` exhausts every finite fuel: instead
of terminating with an error, generation diverges and never produces a
grid. -/
theorem init_empty_catalog_diverges (w h : Nat) (hw : 0 < w) (hh : 0 < h)
    (rand : Nat → Nat → Nat) (fuel : Nat) :
    init rand ⟨w, h, []⟩ fuel = none := by
  unfold init
  have hlen : 0 < w * h := Nat.mul_pos hw hh
  have hnone : getShuffledListWithLength rand ([] : List Variation) (w * h) fuel = none := by
    unfold getShuffledListWithLength
    rw [shuffleLoop_nil rand (w * h) hlen fuel 0]
    rfl
  rw [show (⟨w, h, []⟩ : IBingoConfig).variations = [] from rfl,
    show (⟨w, h, []⟩ : IBingoConfig).width = w from rfl,
    show (⟨w, h, []⟩ : IBingoConfig).height = h from rfl, hnone]

/-- Claim C1 witness: a concrete diverging instance (1×1 grid, empty catalog,
arbitrary fuel). -/
theorem init_empty_catalog_diverges_witness :
    init (fun _ _ => 0) ⟨1, 1, []⟩ 5 = none :=
  init_empty_catalog_diverges 1 1 (by decide) (by decide) (fun _ _ => 0) 5

/-- Claim C8: every generated sheet satisfies the position invariant
(`slots[y][x].position = (x, y)` wherever a cell exists), and generation
assigns the `i`-th element of the truncated shuffle sequence to grid position
`(i % width, i / width)`. -/
theorem generated_positions (rand : Nat → Nat → Nat) (config : IBingoConfig) (fuel : Nat)
    (sheet : BingoSheet) (rest : List Variation) (hw : 0 < config.width)
    (hinit : init rand config fuel = some (sheet, rest)) :
    PositionInv sheet ∧
    ∃ lst arrF, getShuffledListWithLength rand config.variations
        (config.width * config.height) fuel = some (lst, arrF) ∧
      ∀ i, i < config.width * config.height →
        cellGet sheet.slots (i % config.width) (i / config.width)
          = some (createSlot (lst.getD i default) i config.width) := by
  obtain ⟨out, lst, bs, hlst, hgs, hsheet, hlen, hout_len, hperm, hout, hbs⟩ :=
    init_inversion rand config fuel sheet rest hinit
  constructor
  · intro x y c hc
    rw [hsheet] at hc
    obtain ⟨hx, hy, hcv⟩ := buildGrid_cellGet_bounds config.width config.height hw lst hlen
      x y c hc
    rw [hcv]
    show (⟨(y * config.width + x) % config.width, (y * config.width + x) / config.width⟩ :
      Position) = ⟨x, y⟩
    have hmod : (y * config.width + x) % config.width = x := by
      rw [Nat.add_comm (y * config.width) x, Nat.add_mul_mod_self_right,
        Nat.mod_eq_of_lt hx]
    have hdiv : (y * config.width + x) / config.width = y := by
      rw [Nat.add_comm (y * config.width) x, Nat.add_mul_div_right x y hw,
        Nat.div_eq_of_lt hx, Nat.zero_add]
    rw [hmod, hdiv]
  · refine ⟨lst, rest, hgs, ?_⟩
    intro i hi
    have hx : i % config.width < config.width := Nat.mod_lt i hw
    have hy : i / config.width < config.height := by
      rw [Nat.div_lt_iff_lt_mul hw]
      have e : config.height * config.width = config.width * config.height :=
        Nat.mul_comm _ _
      omega
    rw [hsheet]
    show cellGet (buildGridAux config.width lst 0 (List.replicate config.height []))
      (i % config.width) (i / config.width) = _
    rw [buildGrid_cellGet config.width config.height hw lst hlen
      (i % config.width) (i / config.width) hx hy]
    have e1 : (i / config.width) * config.width = config.width * (i / config.width) :=
      Nat.mul_comm _ _
    have e2 := Nat.div_add_mod i config.width
    have hidx : (i / config.width) * config.width + i % config.width = i := by omega
    rw [hidx]

/-- Claim C2: for every catalog, grid size, random choice sequence and fuel
for which generation succeeds, the generated sheet holds exactly
`width * height` slots, and every catalog entry occurs (by value) at least
`floor((width * height) / catalogSize)` times among them. -/
theorem generation_coverage (rand : Nat → Nat → Nat) (config : IBingoConfig) (fuel : Nat)
    (sheet : BingoSheet) (rest : List Variation)
    (hinit : init rand config fuel = some (sheet, rest)) :
    sheet.slots.flatten.length = config.width * config.height ∧
    ∀ v ∈ config.variations,
      (config.width * config.height) / config.variations.length
        ≤ sheet.slots.flatten.countP (fun c => c.value == v.value) := by
  obtain ⟨out, lst, bs, hlst, hgs, hsheet, hlen, hout_len, hperm, hout, hbs⟩ :=
    init_inversion rand config fuel sheet rest hinit
  by_cases hw : 0 < config.width
  · constructor
    · rw [hsheet]
      exact length_flatten_grid config.width config.height hw lst hlen
    · intro v hv
      rw [hsheet]
      show (config.width * config.height) / config.variations.length ≤
        (buildGridAux config.width lst 0 (List.replicate config.height
          [])).flatten.countP (fun c => c.value == v.value)
      rw [countP_flatten_grid config.width config.height hw lst hlen
        (fun t => t == v.value)]
      have hp : 0 < config.variations.countP (fun u => u.value == v.value) :=
        List.countP_pos_iff.mpr ⟨v, hv, beq_iff_eq.mpr rfl⟩
      have hmain := countP_take_flatten_ge config.variations
        (fun u => u.value == v.value) hp bs (config.width * config.height) hbs
        (by rw [← hout]; exact hout_len)
      rw [← hout, ← hlst] at hmain
      exact hmain
  · have hw0 : config.width = 0 := by omega
    have hlen0 : config.width * config.height = 0 := by rw [hw0, Nat.zero_mul]
    have hlst0 : lst = [] := by
      have := hlen
      rw [hlen0] at this
      exact List.eq_nil_of_length_eq_zero this
    have hgrid : sheet.slots = List.replicate config.height [] := by
      rw [hsheet, hlst0]
      rfl
    constructor
    · rw [hgrid, flatten_replicate_nil, hlen0]
      rfl
    · intro v hv
      rw [hlen0, Nat.zero_div]
      exact Nat.zero_le _

/-- Claim C10: generation mutates its input — the shuffle loop permutes the
caller's variation catalog array in place (threaded array state in this
embedding), repeatedly, rather than working on a copy.  After a successful
`init` the final catalog state holds exactly the same elements as the input
catalog (a permutation), and in general in a different order, as the
concrete 1×2 run in the second conjunct exhibits. -/
theorem init_mutates_catalog :
    (∀ (rand : Nat → Nat → Nat) (config : IBingoConfig) (fuel : Nat)
      (sheet : BingoSheet) (rest : List Variation),
      init rand config fuel = some (sheet, rest) → rest.Perm config.variations) ∧
    ((init (fun _ _ => 0) ⟨1, 2, [⟨"a", "", "", ""⟩, ⟨"b", "", "", ""⟩]⟩ 2).map
        (fun r => r.2) = some [⟨"b", "", "", ""⟩, ⟨"a", "", "", ""⟩] ∧
      ([⟨"b", "", "", ""⟩, ⟨"a", "", "", ""⟩] : List Variation)
        ≠ [⟨"a", "", "", ""⟩, ⟨"b", "", "", ""⟩]) := by
  refine ⟨?_, by decide, by decide⟩
  intro rand config fuel sheet rest hinit
  obtain ⟨out, lst, bs, hlst, hgs, hsheet, hlen, hout_len, hperm, hout, hbs⟩ :=
    init_inversion rand config fuel sheet rest hinit
  exact hperm

/-- A fixed prize variation used in concrete checks. -/
def vA : Variation := ⟨"a", "", "", ""⟩

/-- A second fixed prize variation used in concrete checks. -/
def vB : Variation := ⟨"b", "", "", ""⟩

/-- A concrete random source (always drawing 0). -/
def rand0 : Nat → Nat → Nat := fun _ _ => 0

/-- A concrete 2×2 generation configuration over a two-entry catalog. -/
def cfgW : IBingoConfig := ⟨2, 2, [vA, vB]⟩

/-- Fallback value for unwrapping concrete generation results. -/
def sheetFallback : BingoSheet × List Variation := (⟨0, 0, []⟩, [])

/-- The sheet generated by the concrete 2×2 run. -/
def sheetW : BingoSheet := ((init rand0 cfgW 10).getD sheetFallback).1

/-- The final catalog state of the concrete 2×2 run. -/
def restW : List Variation := ((init rand0 cfgW 10).getD sheetFallback).2

/-- Claim C10 witness: the concrete 2×2 run applied to the permutation part. -/
theorem init_mutates_catalog_witness : restW.Perm cfgW.variations :=
  init_mutates_catalog.1 rand0 cfgW 10 sheetW restW (by decide)

/-- Claim C2 witness: coverage of the concrete 2×2 run. -/
theorem generation_coverage_witness :
    sheetW.slots.flatten.length = cfgW.width * cfgW.height ∧
    ∀ v ∈ cfgW.variations,
      (cfgW.width * cfgW.height) / cfgW.variations.length
        ≤ sheetW.slots.flatten.countP (fun c => c.value == v.value) :=
  generation_coverage rand0 cfgW 10 sheetW restW (by decide)

/-- Claim C8 witness: positions of the concrete 2×2 run. -/
theorem generated_positions_witness :
    PositionInv sheetW ∧
    ∃ lst arrF, getShuffledListWithLength rand0 cfgW.variations
        (cfgW.width * cfgW.height) 10 = some (lst, arrF) ∧
      ∀ i, i < cfgW.width * cfgW.height →
        cellGet sheetW.slots (i % cfgW.width) (i / cfgW.width)
          = some (createSlot (lst.getD i default) i cfgW.width) :=
  generated_positions rand0 cfgW 10 sheetW restW (by decide) (by decide)

/-- A hand-built slot for concrete sheets. -/
def slotOf (v : String) (x y : Nat) (p : Bool) : BingoSlot :=
  ⟨v, "", "", "", ⟨x, y⟩, p, false⟩

/-- A 2×2 sheet with a duplicated value at two positions. -/
def sampleSheet : BingoSheet :=
  ⟨2, 2, [[slotOf "a" 0 0 false, slotOf "b" 1 0 false],
          [slotOf "a" 0 1 false, slotOf "c" 1 1 false]]⟩

/-- Claim C3 witness: punching one "a" hit on `sampleSheet` punches the other
slot holding value "a" at a different position as well. -/
theorem punch_marks_witness :
    ((slotOf "a" 0 1 false).value = (slotOf "a" 0 0 false).value →
      cellGet (punch sampleSheet (slotOf "a" 0 0 false)).slots 0 1
        = some { slotOf "a" 0 1 false with punched := true }) ∧
    ((slotOf "a" 0 1 false).value ≠ (slotOf "a" 0 0 false).value →
      cellGet (punch sampleSheet (slotOf "a" 0 0 false)).slots 0 1
        = some (slotOf "a" 0 1 false)) :=
  punch_marks_every_matching_slot sampleSheet (slotOf "a" 0 0 false)
    (positionInv_of_check sampleSheet (by decide)) 0 1 (slotOf "a" 0 1 false) (by decide)

/-- A 2×2 sheet whose second row is fully punched and first row is not. -/
def sheetH : BingoSheet :=
  ⟨2, 2, [[slotOf "a" 0 0 false, slotOf "b" 1 0 false],
          [slotOf "c" 0 1 true, slotOf "d" 1 1 true]]⟩

/-- Claim C5 witness: on `sheetH` the horizontal scan returns row 1 and the
vertical scan returns the empty list. -/
theorem line_scans_witness :
    getHorizontalBingo sheetH = rowAt sheetH.slots 1 ∧ getVerticalBingo sheetH = [] :=
  ⟨(line_scans_first_match sheetH).1 1 (by decide) (by decide) (by decide),
   (line_scans_first_match sheetH).2.2.2 (by decide)⟩

/-- Claim C9 witness: flag monotonicity at cell (0, 1) of `sheetH`. -/
theorem flags_monotone_witness :
    (∃ c1, cellGet (punch sheetH (slotOf "a" 0 0 false)).slots 0 1 = some c1 ∧
      ((slotOf "c" 0 1 true).punched = true → c1.punched = true) ∧
      ((slotOf "c" 0 1 true).bingo = true → c1.bingo = true)) ∧
    (∃ c2, cellGet (getBingo sheetH).2.slots 0 1 = some c2 ∧
      ((slotOf "c" 0 1 true).punched = true → c2.punched = true) ∧
      ((slotOf "c" 0 1 true).bingo = true → c2.bingo = true)) ∧
    (isBingo sheetH).2 = (getBingo sheetH).2 :=
  flags_monotone sheetH (slotOf "a" 0 0 false) 0 1 (slotOf "c" 0 1 true) (by decide)

/-- A fully punched 3×3 sheet. -/
def sheet3 : BingoSheet :=
  ⟨3, 3, [[slotOf "0" 0 0 true, slotOf "1" 1 0 true, slotOf "2" 2 0 true],
          [slotOf "3" 0 1 true, slotOf "4" 1 1 true, slotOf "5" 2 1 true],
          [slotOf "6" 0 2 true, slotOf "7" 1 2 true, slotOf "8" 2 2 true]]⟩

/-- A 4×3 sheet with an arbitrary punch pattern. -/
def sheet43 : BingoSheet :=
  ⟨4, 3, [[slotOf "0" 0 0 true, slotOf "1" 1 0 true, slotOf "2" 2 0 false,
           slotOf "3" 3 0 true],
          [slotOf "4" 0 1 true, slotOf "5" 1 1 true, slotOf "6" 2 1 true,
           slotOf "7" 3 1 true],
          [slotOf "8" 0 2 false, slotOf "9" 1 2 true, slotOf "10" 2 2 true,
           slotOf "11" 3 2 true]]⟩

/-- Claim C4 witness: the non-square sheet yields no diagonal bingo, and on
the fully punched 3×3 sheet the center slot is counted twice. -/
theorem diagonal_detection_witness :
    getDiagonalBingo sheet43 = [] ∧
    2 ≤ (getDiagonalBingo sheet3).count (cellD sheet3.slots 1 1) :=
  ⟨(diagonal_detection sheet43).1 (by decide),
   (diagonal_detection sheet3).2.2 (by decide) rfl (by decide) (by decide) (by decide)⟩

theorem shuffleLoop_terminates (rand : Nat → Nat → Nat) (len : Nat) :
    ∀ (fuel k : Nat) (arr dest : List α), arr ≠ [] → len ≤ dest.length + fuel →
    ∃ r, shuffleLoop rand len fuel k arr dest = some r := by
  intro fuel
  induction fuel with
  | zero =>
    intro k arr dest _ hle
    rw [shuffleLoop]
    have : ¬ dest.length < len := by omega
    simp [this]
  | succ f ih =>
    intro k arr dest hne hle
    rw [shuffleLoop]
    by_cases hc : dest.length < len
    · rw [if_pos hc]
      have hne2 : arrayShuffle (rand k) arr ≠ [] := by
        intro he
        have := (arrayShuffle_perm (rand k) arr).length_eq
        rw [he] at this
        exact hne (List.eq_nil_of_length_eq_zero this.symm)
      have hlen2 : 1 ≤ (arrayShuffle (rand k) arr).length := by
        cases hh : arrayShuffle (rand k) arr with
        | nil => exact absurd hh hne2
        | cons a t => simp
      apply ih (k+1) (arrayShuffle (rand k) arr) (dest ++ arrayShuffle (rand k) arr) hne2
      rw [List.length_append]
      omega
    · rw [if_neg hc]
      exact ⟨(dest, arr), rfl⟩

theorem init_terminates (rand : Nat → Nat → Nat) (config : IBingoConfig)
    (hne : config.variations ≠ []) :
    ∃ r, init rand config (config.width * config.height) = some r := by
  obtain ⟨⟨out, arrF⟩, hloop⟩ := shuffleLoop_terminates rand (config.width * config.height)
    (config.width * config.height) 0 config.variations [] hne (by simp)
  unfold init getShuffledListWithLength
  rw [hloop]
  exact ⟨_, rfl⟩
